import Mathlib

/-!
Shallow embedding of the `learn-to-fly` repository (neural network,
genetic algorithm, simulation) and proofs about it.

Numbers: the Rust code computes on `f32`; the embedding uses `Rat` so that
every definition is executable and equalities are decidable.  The structure
of every computation (order of operations, guards, panics as `Option.none`)
is translated from the source.

Randomness: the Rust code threads `&mut dyn RngCore` through every
randomness-consuming call.  The embedding models an RNG as an explicit
value: an infinite stream of rationals together with a cursor; each
primitive draw consumes one stream element.  `ValidRng` says every draw
lies in `[0, 1)`, which is what `rand`'s uniform `f32`/`bool` primitives
guarantee.
-/

/-- An explicit random-number generator: a stream of draws and a cursor. -/
structure Rng where
  stream : Nat → Rat
  idx : Nat

/-- Consume one draw. -/
def Rng.next (r : Rng) : Rat × Rng :=
  (r.stream r.idx, ⟨r.stream, r.idx + 1⟩)

/-- All draws of the stream lie in `[0, 1)` (as `rand`'s uniform primitives do). -/
def ValidRng (r : Rng) : Prop :=
  ∀ n, 0 ≤ r.stream n ∧ r.stream n < 1

/-- Model of `rng.gen_bool(p)`: draw `u ∈ [0,1)`, return `u < p`. -/
def Rng.genBool (r : Rng) (p : Rat) : Bool × Rng :=
  (decide (r.next.1 < p), r.next.2)

/-- Executable `f32::max`: `if a ≤ b then b else a`. -/
def qmax (a b : Rat) : Rat := if a ≤ b then b else a

/-- Executable `f32::min`: `if a ≤ b then a else b`. -/
def qmin (a b : Rat) : Rat := if a ≤ b then a else b

/-! ## Neural network (`src/libs/neural-network/src/lib.rs`) -/

/-- Rust `Neuron { bias: f32, weights: Vec<f32> }`. -/
structure Neuron where
  bias : Rat
  weights : List Rat
deriving DecidableEq

/-- Rust `Layer { neurons: Vec<Neuron> }`. -/
structure Layer where
  neurons : List Neuron
deriving DecidableEq

/-- Rust `Network { layers: Vec<Layer> }`. -/
structure Network where
  layers : List Layer
deriving DecidableEq

/-- Rust `Neuron::propogate`: asserts `inputs.len() == self.weights.len()`
(the panic is modelled as `none`), then returns
`(self.bias + Σ input_j * weight_j).max(0.0)`. -/
def Neuron.propogate (n : Neuron) (inputs : List Rat) : Option Rat :=
  if inputs.length = n.weights.length then
    some (qmax (n.bias + (List.zipWith (fun a b => a * b) inputs n.weights).sum) 0)
  else
    none

/-- Rust `Layer::propogate` maps `Neuron::propogate` over the neurons in
order, collecting the outputs; a panic in any neuron aborts the whole
call. -/
def neuronsPropogate (inputs : List Rat) : List Neuron → Option (List Rat)
  | [] => some []
  | n :: ns =>
    (n.propogate inputs).bind (fun x => (neuronsPropogate inputs ns).map (fun xs => x :: xs))

/-- Rust `Layer::propogate`. -/
def Layer.propogate (l : Layer) (inputs : List Rat) : Option (List Rat) :=
  neuronsPropogate inputs l.neurons

/-- Rust `Network::propogate` folds each layer's output as the next
layer's input, aborting at the first panicking layer. -/
def layersPropogate : List Layer → List Rat → Option (List Rat)
  | [], inputs => some inputs
  | l :: rest, inputs => (l.propogate inputs).bind (layersPropogate rest)

/-- Rust `Network::propogate`. -/
def Network.propogate (net : Network) (inputs : List Rat) : Option (List Rat) :=
  layersPropogate net.layers inputs

/-- Rust `Network::weights`: for every layer, for every neuron, emit the
bias followed by the weights, flattened into one sequence. -/
def Network.weights (net : Network) : List Rat :=
  (((net.layers.map (fun l => l.neurons)).flatten).map (fun n => n.bias :: n.weights)).flatten

/-- Take exactly `n` values off the front of the list (`none` models the
iterator running dry, i.e. the `expect` panic in `Neuron::from_weights`). -/
def takeN : Nat → List Rat → Option (List Rat × List Rat)
  | 0, ws => some ([], ws)
  | _ + 1, [] => none
  | n + 1, w :: ws => (takeN n ws).map (fun p => (w :: p.1, p.2))

/-- Rust `Neuron::from_weights`: consume one bias then `input_size`
weights; `none` models the `expect("got not enought weights")` panic. -/
def Neuron.fromWeights (inputSize : Nat) (ws : List Rat) : Option (Neuron × List Rat) :=
  match ws with
  | [] => none
  | b :: rest => (takeN inputSize rest).map (fun p => (⟨b, p.1⟩, p.2))

/-- Rust `Layer::from_weights`: build `outputSize` neurons in order, each
consuming from the shared sequence. -/
def Layer.fromWeightsAux (inputSize : Nat) : Nat → List Rat → Option (List Neuron × List Rat)
  | 0, ws => some ([], ws)
  | n + 1, ws =>
    (Neuron.fromWeights inputSize ws).bind fun nr =>
      (Layer.fromWeightsAux inputSize n nr.2).bind fun ns =>
        some (nr.1 :: ns.1, ns.2)

/-- Rust `Layer::from_weights`, wrapping the neuron list into a `Layer`. -/
def Layer.fromWeights (inputSize outputSize : Nat) (ws : List Rat) : Option (Layer × List Rat) :=
  (Layer.fromWeightsAux inputSize outputSize ws).map (fun p => (⟨p.1⟩, p.2))

/-- Adjacent pairs of a list: Rust `layers.windows(2)`. -/
def pairsOf : List Nat → List (Nat × Nat)
  | a :: b :: t => (a, b) :: pairsOf (b :: t)
  | _ => []

/-- Build the layers of a network from the topology's adjacent pairs,
threading the weight sequence. -/
def Network.fromWeightsAux : List (Nat × Nat) → List Rat → Option (List Layer × List Rat)
  | [], ws => some ([], ws)
  | (i, o) :: ps, ws =>
    (Layer.fromWeights i o ws).bind fun l =>
      (Network.fromWeightsAux ps l.2).bind fun ls =>
        some (l.1 :: ls.1, ls.2)

/-- Rust `Network::from_weights`: asserts the topology has more than one
entry, builds each layer from adjacent topology pairs, and panics
(`none`) if any value is left over (`"got too many weights"`). -/
def Network.fromWeights (topology : List Nat) (ws : List Rat) : Option Network :=
  if topology.length ≤ 1 then none
  else
    match Network.fromWeightsAux (pairsOf topology) ws with
    | some (ls, []) => some ⟨ls⟩
    | _ => none

/-- Specification-side formula for one neuron's output:
`max(0, bias + Σ input_j * weight_j)` (the spec's ReLU formula). -/
def neuronOutSpec (inputs : List Rat) (n : Neuron) : Rat :=
  max 0 (n.bias + (List.zipWith (fun a b => a * b) inputs n.weights).sum)

/-- Specification-side output of one layer. -/
def layerOutSpec (inputs : List Rat) (l : Layer) : List Rat :=
  l.neurons.map (neuronOutSpec inputs)

/-- Specification-side output of the whole network: fold each layer's
output vector as the next layer's input. -/
def netOutSpec (net : Network) (inputs : List Rat) : List Rat :=
  net.layers.foldl layerOutSpec inputs

/-- Shape check: starting from an input of width `w`, every neuron of
every layer has exactly as many weights as its layer's input width. -/
def shapeOk : List Layer → Nat → Bool
  | [], _ => true
  | l :: ls, w => l.neurons.all (fun n => n.weights.length == w) && shapeOk ls l.neurons.length

/-- Total number of parameters a topology requires:
`Σ output_width * (1 + input_width)` over adjacent pairs. -/
def totalParams (topology : List Nat) : Nat :=
  ((pairsOf topology).map (fun p => p.2 * (1 + p.1))).sum

/-- A list of layers realises a list of `(input, output)` width pairs. -/
def layersMatch : List (Nat × Nat) → List Layer → Bool
  | [], [] => true
  | (i, o) :: ps, l :: ls =>
    l.neurons.length == o && l.neurons.all (fun n => n.weights.length == i) && layersMatch ps ls
  | _, _ => false

/-- A network was built over the given topology. -/
def Network.matchesTopo (net : Network) (topology : List Nat) : Bool :=
  layersMatch (pairsOf topology) net.layers

/-! ## Genetic algorithm (`src/libs/genetic-algorithm/src/lib.rs`) -/

/-- Rust `Chromosome`: a vector of genes. -/
abbrev Chromosome := List Rat

/-- The Rust `Individual` trait: `create`, `fitness`, `chromosome`. -/
structure IndividualOps (I : Type) where
  create : Chromosome → I
  fitness : I → Rat
  chromosome : I → Chromosome

/-- The strategy objects a `GeneticAlgorithm` is constructed with:
selection (fallible, since `RouletteWheelSelection` can panic), crossover
and mutation, each threading the RNG. -/
structure GaMethods (I : Type) where
  select : Rng → List I → Option (I × Rng)
  crossover : Rng → Chromosome → Chromosome → Chromosome × Rng
  mutate : Rng → Chromosome → Chromosome × Rng

/-- Rust `GaussianMutation::mutate`: for each gene draw a sign via
`gen_bool(0.5)` (`true` gives `-1.0`), then with probability `chance` add
`sign * coeff * gen::<f32>()` to the gene. -/
def gaussianMutate (chance coeff : Rat) : Rng → List Rat → List Rat × Rng
  | r, [] => ([], r)
  | r, g :: gs =>
    let s1 := r.genBool (1/2)
    let sign : Rat := if s1.1 then -1 else 1
    let s2 := s1.2.genBool chance
    if s2.1 then
      let u := s2.2.next
      let rest := gaussianMutate chance coeff u.2 gs
      ((g + sign * coeff * u.1) :: rest.1, rest.2)
    else
      let rest := gaussianMutate chance coeff s2.2 gs
      (g :: rest.1, rest.2)

/-- Rust `Statistics { min_fitness, max_fitness, avg_fitness }`. -/
structure Statistics where
  minFitness : Rat
  maxFitness : Rat
  avgFitness : Rat
deriving DecidableEq

/-- Rust `Statistics::new`: asserts the population is non-empty (`none`
models the panic), seeds min and max with the first fitness, sums all
fitnesses and divides by the length. -/
def statisticsNew {I : Type} (ops : IndividualOps I) (pop : List I) : Option Statistics :=
  match pop with
  | [] => none
  | x :: _ =>
    let f0 := ops.fitness x
    let folded := pop.foldl
      (fun acc ind =>
        (qmin acc.1 (ops.fitness ind), qmax acc.2.1 (ops.fitness ind), acc.2.2 + ops.fitness ind))
      (f0, f0, 0)
    some ⟨folded.1, folded.2.1, folded.2.2 / (pop.length : Rat)⟩

/-- The loop body of Rust `GeneticAlgorithm::evolve`, iterated once per
output slot in index order: select parent a, select parent b, crossover,
mutate, `Individual::create`. -/
def gaEvolveLoop {I : Type} (ops : IndividualOps I) (ga : GaMethods I) (pop : List I) :
    Nat → Rng → Option (List I × Rng)
  | 0, r => some ([], r)
  | n + 1, r =>
    (ga.select r pop).bind fun pa =>
      (ga.select pa.2 pop).bind fun pb =>
        let child := ga.crossover pb.2 (ops.chromosome pa.1) (ops.chromosome pb.1)
        let child2 := ga.mutate child.2 child.1
        (gaEvolveLoop ops ga pop n child2.2).bind fun rest =>
          some (ops.create child2.1 :: rest.1, rest.2)

/-- Rust `GeneticAlgorithm::evolve`: asserts the population is non-empty
(`none` models the panic), builds `population.len()` offspring via the
loop, then computes `Statistics::new(population)` over the input
population.  The final RNG state is returned alongside, standing for the
side effect on the caller's `&mut dyn RngCore`. -/
def gaEvolve {I : Type} (ops : IndividualOps I) (ga : GaMethods I) (r : Rng) (pop : List I) :
    Option ((List I × Statistics) × Rng) :=
  if pop.isEmpty then none
  else
    (gaEvolveLoop ops ga pop pop.length r).bind fun newPop =>
      (statisticsNew ops pop).bind fun stats =>
        some ((newPop.1, stats), newPop.2)

/-- Specification-side description of one output slot: draw parent a then
parent b via the selection method, cross their chromosomes, mutate the
child, materialise it via `create`. -/
def evolveSlot {I : Type} (ops : IndividualOps I) (ga : GaMethods I) (pop : List I) (r : Rng) :
    Option (I × Rng) :=
  (ga.select r pop).bind fun pa =>
    (ga.select pa.2 pop).bind fun pb =>
      let child := ga.crossover pb.2 (ops.chromosome pa.1) (ops.chromosome pb.1)
      let child2 := ga.mutate child.2 child.1
      some (ops.create child2.1, child2.2)

/-- Run a fallible RNG-threading producer `n` times, collecting results in
index order. -/
def iterSlots {I : Type} (f : Rng → Option (I × Rng)) : Nat → Rng → Option (List I × Rng)
  | 0, r => some ([], r)
  | n + 1, r =>
    (f r).bind fun x =>
      (iterSlots f n x.2).bind fun xs =>
        some (x.1 :: xs.1, xs.2)

/-! ## Simulation (`src/libs/simulation/src/...`) -/

/-- A 2D point or vector with rational coordinates. -/
abbrev Point := Rat × Rat

/-- Componentwise subtraction (`food.position - position`). -/
def psub (a b : Point) : Point := (a.1 - b.1, a.2 - b.2)

/-- Componentwise addition (`position += ...`). -/
def padd (a b : Point) : Point := (a.1 + b.1, a.2 + b.2)

/-- Model of `rng.gen::<Point2<f32>>()`: one draw per coordinate. -/
def Rng.nextPoint (r : Rng) : Point × Rng :=
  ((r.next.1, r.next.2.next.1), r.next.2.next.2)

/-- Rust `f32::clamp(lo, hi)` (callers guarantee `lo ≤ hi`). -/
def qclamp (v lo hi : Rat) : Rat := qmax lo (qmin v hi)

/-- `na::wrap(x, lo, hi)`: translate `x` by multiples of `hi - lo` into
`[lo, hi)`. -/
def rwrap (x lo hi : Rat) : Rat := x - (hi - lo) * ((⌊(x - lo) / (hi - lo)⌋ : Int) : Rat)

/-- The geometric primitives the simulation consumes from `nalgebra`.
They compute with square roots and trigonometry (`distance`, `norm`,
`rotation_between(...).angle()`, `Rotation2::new`, rotation applied to a
vector, and the constants `π` and `ROTATION_ACCEL = π/2`), which have no
exact rational form, so the embedding abstracts them as parameters; every
theorem below holds for all of them, and closed witnesses instantiate
them with rational stand-ins that agree with the Euclidean ones at the
evaluated inputs. -/
structure Geo where
  dist : Point → Point → Rat
  norm : Point → Rat
  angleOf : Point → Rat
  pi : Rat
  rotAccel : Rat
  mkRot : Rat → Rat
  disp : Rat → Rat → Point

/-- Rust `Eye { fov_range, fov_angle, cells }` (`src/libs/simulation/src/eye.rs`). -/
structure Eye where
  fovRange : Rat
  fovAngle : Rat
  cells : Nat
deriving DecidableEq

/-- Modelled from the spec: `food.rs` is declared in
`src/libs/simulation/src/lib.rs` but absent from the sources; spec §3
gives `Food = {position: point}`. -/
structure Food where
  position : Point
deriving DecidableEq

/-- Rust `Animal` (`src/libs/simulation/src/animal.rs`): position,
rotation, speed, eye, brain.  The source struct has no satiation field. -/
structure Animal where
  position : Point
  rotation : Rat
  speed : Rat
  eye : Eye
  brain : Network
deriving DecidableEq

/-- Modelled from the spec: `world.rs` is declared in
`src/libs/simulation/src/lib.rs` but absent from the sources; spec §3
gives `World` as an ordered sequence of Animals and one of Foods. -/
structure World where
  animals : List Animal
  foods : List Food
deriving DecidableEq

/-- The per-food geometric front half of `Eye::process_vision` (lines
130-143): relative vector, its norm, the bearing against the y axis minus
the agent's rotation, wrapped into `[-π, π)`. -/
def foodMeasure (geo : Geo) (pos : Point) (rot : Rat) (f : Food) : Rat × Rat :=
  let vec := psub f.position pos
  (geo.norm vec, rwrap (geo.angleOf vec - rot) (-geo.pi) geo.pi)

/-- The bin index of `Eye::process_vision` (lines 150-156): shift the
angle by `fov_angle/2`, normalise, scale by the cell count, truncate to a
natural number (the Rust `as usize` cast saturates at 0 from below) and
clamp to `cells - 1`. -/
def binOf (eye : Eye) (angle : Rat) : Nat :=
  min (Int.toNat ⌊(angle + eye.fovAngle / 2) / eye.fovAngle * (eye.cells : Rat)⌋)
    (eye.cells - 1)

/-- `cells[cell] += energy` on a rational list. -/
def bump (l : List Rat) (i : Nat) (e : Rat) : List Rat :=
  l.set i (l.getD i 0 + e)

/-- The accumulation loop of `Eye::process_vision` over the per-food
measures `(dist, wrapped angle)`: skip foods at `dist ≥ fov_range`, skip
wrapped angles outside `[-fov_angle/2, fov_angle/2]`, otherwise add
`(fov_range - dist) / fov_range` into the food's bin. -/
def visionAccum (eye : Eye) : List (Rat × Rat) → List Rat → List Rat
  | [], acc => acc
  | (d, a) :: ms, acc =>
    if eye.fovRange ≤ d then visionAccum eye ms acc
    else if a < -(eye.fovAngle / 2) ∨ eye.fovAngle / 2 < a then visionAccum eye ms acc
    else visionAccum eye ms (bump acc (binOf eye a) ((eye.fovRange - d) / eye.fovRange))

/-- Rust `Eye::process_vision`: starts from `vec![0.0; cells]` and folds
the per-food loop.  The source computes each food's measure inside the
same loop iteration that bins it; as no state flows between the two
halves, mapping the measures first is the same computation. -/
def processVision (geo : Geo) (eye : Eye) (pos : Point) (rot : Rat) (foods : List Food) :
    List Rat :=
  visionAccum eye (foods.map (foodMeasure geo pos rot)) (List.replicate eye.cells 0)

/-- Specification-side one-hot vector: `e` at index `i`, `0` elsewhere. -/
def oneHot (n i : Nat) (e : Rat) : List Rat :=
  (List.replicate n (0 : Rat)).set i e

/-- Inner loop of `Simulation::process_collisions` (one animal against
every food, in order): when `distance ≤ 0.01` the food's position is
replaced by a fresh `rng.gen()` draw; the food is never removed. -/
def processCollisionsFood (geo : Geo) (a : Animal) : Rng → List Food → List Food × Rng
  | r, [] => ([], r)
  | r, f :: fs =>
    if geo.dist a.position f.position ≤ 1/100 then
      let p := r.nextPoint
      let rest := processCollisionsFood geo a p.2 fs
      (⟨p.1⟩ :: rest.1, rest.2)
    else
      let rest := processCollisionsFood geo a r fs
      (f :: rest.1, rest.2)

/-- Outer loop of `Simulation::process_collisions` over the animals. -/
def processCollisionsAnimals (geo : Geo) : List Animal → Rng → List Food → List Food × Rng
  | [], r, fs => (fs, r)
  | a :: rest, r, fs =>
    let step1 := processCollisionsFood geo a r fs
    processCollisionsAnimals geo rest step1.2 step1.1

/-- Rust `Simulation::process_collisions` (lib.rs lines 80-90): the
animals are only read; only `world.foods` and the RNG change. -/
def processCollisions (geo : Geo) (w : World) (r : Rng) : World × Rng :=
  let fs := processCollisionsAnimals geo w.animals r w.foods
  ({ w with foods := fs.1 }, fs.2)

/-- Lines 103-104 of `Simulation::process_brains`: read `response[0]` and
`response[1]` (a panic, hence `none`, if the response is shorter than 2)
and clamp them to `±SPEED_ACCEL = ±0.2` and `±ROTATION_ACCEL`. -/
def brainDeltas (rotAccel : Rat) : List Rat → Option (Rat × Rat)
  | s :: rot :: _ => some (qclamp s (-(1/5)) (1/5), qclamp rot (-rotAccel) rotAccel)
  | _ => none

/-- One animal's update in `Simulation::process_brains`: vision, brain
propagation, clamped deltas, speed clamped into
`[SPEED_MIN, SPEED_MAX] = [0.001, 0.005]`, rotation rebuilt via
`Rotation2::new(angle + delta)`. -/
def processBrainsAnimal (geo : Geo) (foods : List Food) (a : Animal) : Option Animal :=
  (a.brain.propogate (processVision geo a.eye a.position a.rotation foods)).bind fun response =>
    (brainDeltas geo.rotAccel response).bind fun d =>
      some { a with
        speed := qclamp (a.speed + d.1) (1/1000) (5/1000)
        rotation := geo.mkRot (a.rotation + d.2) }

/-- The loop of Rust `Simulation::process_brains`, updating the animals
in order; a panic in any animal aborts the whole pass. -/
def animalsBrains (geo : Geo) (foods : List Food) : List Animal → Option (List Animal)
  | [] => some []
  | a :: rest =>
    (processBrainsAnimal geo foods a).bind fun a2 =>
      (animalsBrains geo foods rest).map (fun l => a2 :: l)

/-- Rust `Simulation::process_brains` over all animals. -/
def processBrains (geo : Geo) (w : World) : Option World :=
  (animalsBrains geo w.foods w.animals).map (fun l => { w with animals := l })

/-- Rust `Simulation::process_movements`: advance each animal by the
rotated `(0, speed)` vector and wrap both coordinates into `[0, 1)`. -/
def processMovements (geo : Geo) (w : World) : World :=
  { w with
    animals := w.animals.map (fun a =>
      let p := padd a.position (geo.disp a.rotation a.speed)
      { a with position := (rwrap p.1 0 1, rwrap p.2 0 1) }) }

/-- Rust `Simulation { world, ga, age }`.  The `ga` engine is only
mentioned inside `evolve` after the unconditional `todo!()` panic, so it
is unreachable and omitted from the state. -/
structure Simulation where
  world : World
  age : Nat
deriving DecidableEq

/-- Rust `GENERATION_LENGTH`. -/
def GENERATION_LENGTH : Nat := 2500

/-- Rust `Simulation::evolve` (lib.rs lines 120-137): after `self.age = 0`
the body evaluates `let current_population = todo!();`, an unconditional
panic, so the call never completes — modelled as `none` for every
input. -/
def simEvolve (_geo : Geo) (_s : Simulation) (_r : Rng) : Option (Simulation × Rng) :=
  none

/-- Rust `Simulation::step`: collisions, brains, movements, increment
`age`, and call `evolve` when `age` exceeds `GENERATION_LENGTH`. -/
def stepSim (geo : Geo) (s : Simulation) (r : Rng) : Option (Simulation × Rng) :=
  let c := processCollisions geo s.world r
  (processBrains geo c.1).bind fun w2 =>
    let w3 := processMovements geo w2
    let age2 := s.age + 1
    if GENERATION_LENGTH < age2 then simEvolve geo ⟨w3, age2⟩ c.2
    else some (⟨w3, age2⟩, c.2)

/-- The sequence of World states produced by `n` calls to `step`,
truncated at the first panicking step. -/
def stepTrace (geo : Geo) : Nat → Simulation → Rng → List World
  | 0, _, _ => []
  | n + 1, s, r =>
    match stepSim geo s r with
    | none => []
    | some (s2, r2) => s2.world :: stepTrace geo n s2 r2

/-! ## Concrete instances used by closed theorems -/

/-- Flattened parameters of one layer, bias first per neuron. -/
def layerFlat (l : Layer) : List Rat :=
  (l.neurons.map (fun n => n.bias :: n.weights)).flatten

/-- Parameters a list of `(input, output)` pairs requires. -/
def neededOf (ps : List (Nat × Nat)) : Nat :=
  (ps.map (fun p => p.2 * (1 + p.1))).sum

/-- A rational stand-in for the transcendental geometry, used only to
evaluate closed theorems; it agrees with the Euclidean primitives at the
inputs where those theorems evaluate it (zero and axis-aligned vectors). -/
def geo0 : Geo where
  dist := fun p q => |p.1 - q.1| + |p.2 - q.2|
  norm := fun v => |v.1| + |v.2|
  angleOf := fun _ => 0
  pi := 3
  rotAccel := 157/100
  mkRot := id
  disp := fun _ s => (0, s)

/-- A valid RNG whose every draw is `1/2`. -/
def rng0 : Rng := ⟨fun _ => 1/2, 0⟩

/-- A one-cell eye with `fov_range = 1` and `fov_angle = 2`. -/
def eye0 : Eye := ⟨1, 2, 1⟩

/-- A one-layer network: two neurons over one input. -/
def net0 : Network := ⟨[⟨[⟨1/10, [1/5]⟩, ⟨0, [3/10]⟩]⟩]⟩

/-- An animal at the centre of the world looking along the y axis. -/
def animal0 : Animal := ⟨(1/2, 1/2), 0, 1/500, eye0, net0⟩

/-- A food at the same position as `animal0`. -/
def food0 : Food := ⟨(1/2, 1/2)⟩

/-- A world with one animal sitting exactly on one food. -/
def world0 : World := ⟨[animal0], [food0]⟩

/-- A two-entry-topology network with a single neuron. -/
def net1 : Network := ⟨[⟨[⟨1, [2]⟩]⟩]⟩

/-- Individual operations on bare chromosomes: `create` and `chromosome`
are the identity, fitness is the gene sum. -/
def ops1 : IndividualOps Chromosome := ⟨id, List.sum, id⟩

/-- Degenerate strategies for closed instantiations: select the head,
return parent a unchanged, mutate nothing. -/
def ga1 : GaMethods Chromosome :=
  ⟨fun r pop => pop.head?.map (fun x => (x, r)),
   fun r a _ => (a, r),
   fun r c => (c, r)⟩

/-- A one-member population of one-gene chromosomes. -/
def pop1 : List Chromosome := [[1]]

/-- A valid RNG whose every draw is `1/3` (used to make a relocation
visible: the fresh position differs from the old one). -/
def rng1 : Rng := ⟨fun _ => 1/3, 0⟩

/-! ## Helper lemmas: propagation -/

theorem qmax_eq_max (a b : Rat) : qmax a b = max a b := by
  unfold qmax
  split
  · exact (max_eq_right (by assumption)).symm
  · exact (max_eq_left (le_of_not_le (by assumption))).symm

theorem qmin_eq_min (a b : Rat) : qmin a b = min a b := by
  unfold qmin
  split
  · exact (min_eq_left (by assumption)).symm
  · exact (min_eq_right (le_of_not_le (by assumption))).symm

theorem qclamp_eq (v lo hi : Rat) : qclamp v lo hi = max lo (min v hi) := by
  unfold qclamp
  rw [qmax_eq_max, qmin_eq_min]

theorem neuron_propogate_eq (n : Neuron) (inputs : List Rat) :
    n.propogate inputs =
      if n.weights.length = inputs.length then some (neuronOutSpec inputs n) else none := by
  unfold Neuron.propogate neuronOutSpec
  by_cases h : inputs.length = n.weights.length
  · rw [if_pos h, if_pos h.symm, qmax_eq_max, max_comm]
  · rw [if_neg h, if_neg (Ne.symm h)]

theorem neuronsPropogate_eq (ns : List Neuron) (inputs : List Rat) :
    neuronsPropogate inputs ns =
      if ∀ n ∈ ns, n.weights.length = inputs.length then
        some (ns.map (neuronOutSpec inputs))
      else none := by
  induction ns with
  | nil => simp [neuronsPropogate]
  | cons n ns ih =>
    rw [neuronsPropogate, neuron_propogate_eq, ih]
    by_cases h : n.weights.length = inputs.length
    · rw [if_pos h]
      by_cases h2 : ∀ m ∈ ns, m.weights.length = inputs.length
      · rw [if_pos h2, if_pos (show ∀ m ∈ n :: ns, m.weights.length = inputs.length from
          List.forall_mem_cons.mpr ⟨h, h2⟩)]
        rfl
      · rw [if_neg h2, if_neg (show ¬∀ m ∈ n :: ns, m.weights.length = inputs.length from
          fun hall => h2 fun m hm => hall m (List.mem_cons_of_mem n hm))]
        rfl
    · rw [if_neg h, if_neg (show ¬∀ m ∈ n :: ns, m.weights.length = inputs.length from
          fun hall => h (hall n (List.mem_cons_self n ns)))]
      rfl

theorem layersPropogate_eq (ls : List Layer) (inputs : List Rat) :
    layersPropogate ls inputs =
      if shapeOk ls inputs.length then some (ls.foldl layerOutSpec inputs) else none := by
  induction ls generalizing inputs with
  | nil => simp [layersPropogate, shapeOk]
  | cons l ls ih =>
    rw [layersPropogate, Layer.propogate, neuronsPropogate_eq]
    by_cases h : ∀ n ∈ l.neurons, n.weights.length = inputs.length
    · rw [if_pos h]
      have hall : l.neurons.all (fun n => n.weights.length == inputs.length) = true := by
        simpa [List.all_eq_true] using h
      show layersPropogate ls (l.neurons.map (neuronOutSpec inputs)) = _
      rw [ih, List.length_map, shapeOk, hall, Bool.true_and, List.foldl_cons]
      rfl
    · have hall : l.neurons.all (fun n => n.weights.length == inputs.length) = false := by
        simpa [List.all_eq_true] using h
      rw [if_neg h, shapeOk, hall, Bool.false_and]
      rfl

theorem propogate_eq_spec (net : Network) (inputs : List Rat) :
    net.propogate inputs =
      if shapeOk net.layers inputs.length then some (netOutSpec net inputs) else none :=
  layersPropogate_eq net.layers inputs

/-- C5: for every network and every input vector, `Network::propogate`
computes each neuron's output as `max(0, bias + Σ input_j * weight_j)`
(ReLU) and folds each layer's output vector as the next layer's input
(`netOutSpec`); whenever any layer's input length differs from a neuron's
weight count — including an input whose length differs from the first
layer's expected width — the call panics (`none`), a fatal contract
violation rather than a recoverable error. -/
theorem network_propogate_relu_fold (net : Network) (inputs : List Rat) :
    net.propogate inputs =
      if shapeOk net.layers inputs.length then some (netOutSpec net inputs) else none :=
  propogate_eq_spec net inputs

theorem foldl_layerOutSpec_nonneg (ls : List Layer) (inputs : List Rat) (h : ls ≠ []) :
    ∀ v ∈ ls.foldl layerOutSpec inputs, 0 ≤ v := by
  induction ls generalizing inputs with
  | nil => exact absurd rfl h
  | cons l ls ih =>
    cases ls with
    | nil =>
      intro v hv
      rw [List.foldl_cons, List.foldl_nil] at hv
      simp only [layerOutSpec, List.mem_map] at hv
      obtain ⟨m, _, rfl⟩ := hv
      exact le_max_left 0 _
    | cons l2 ls2 =>
      intro v hv
      rw [List.foldl_cons] at hv
      exact ih (layerOutSpec inputs l) (List.cons_ne_nil _ _) v hv

/-- C10: every element of a (non-trivial) network's `propogate` output is
non-negative, because the final layer applies the same `max(0, ·)`
activation as the hidden ones; consequently the Δspeed and Δrotation
values read in `Simulation::process_brains` (the clamped `response[0]`
and `response[1]`) are themselves non-negative. -/
theorem propogate_output_nonneg (net : Network) (inputs out : List Rat) (rotAccel : Rat)
    (h1 : net.layers ≠ []) (h2 : net.propogate inputs = some out) (h3 : 0 ≤ rotAccel) :
    (∀ v ∈ out, 0 ≤ v) ∧
      ∀ ds dr, brainDeltas rotAccel out = some (ds, dr) → 0 ≤ ds ∧ 0 ≤ dr := by
  have hch := propogate_eq_spec net inputs
  rw [h2] at hch
  by_cases hs : shapeOk net.layers inputs.length = true
  case neg =>
    rw [if_neg hs] at hch
    exact Option.noConfusion hch
  case pos =>
    rw [if_pos hs] at hch
    have hout : out = netOutSpec net inputs := Option.some.inj hch
    have hnn : ∀ v ∈ out, 0 ≤ v := by
      rw [hout]
      exact foldl_layerOutSpec_nonneg net.layers inputs h1
    refine ⟨hnn, fun ds dr hbd => ?_⟩
    cases out with
    | nil => exact Option.noConfusion hbd
    | cons s rest =>
      cases rest with
      | nil => exact Option.noConfusion hbd
      | cons rot rest2 =>
        have hs0 : 0 ≤ s := hnn s (List.mem_cons_self s _)
        have hr0 : 0 ≤ rot := hnn rot (List.mem_cons_of_mem s (List.mem_cons_self rot rest2))
        have hpair := Option.some.inj hbd
        have hds : ds = qclamp s (-(1/5)) (1/5) := (congrArg Prod.fst hpair).symm
        have hdr : dr = qclamp rot (-rotAccel) rotAccel := (congrArg Prod.snd hpair).symm
        subst hds
        subst hdr
        constructor
        · rw [qclamp_eq]
          exact le_max_of_le_right (le_min hs0 (by norm_num))
        · rw [qclamp_eq]
          exact le_max_of_le_right (le_min hr0 h3)

/-- Witness for C10 at a concrete network and input. -/
theorem propogate_output_nonneg_witness :
    net0.layers ≠ [] ∧ net0.propogate [1] = some [3/10, 3/10] ∧ (0 : Rat) ≤ 157/100 ∧
      ((∀ v ∈ ([3/10, 3/10] : List Rat), 0 ≤ v) ∧
        ∀ ds dr, brainDeltas (157/100) [3/10, 3/10] = some (ds, dr) → 0 ≤ ds ∧ 0 ≤ dr) :=
  ⟨by simp [net0],
    by norm_num [Network.propogate, layersPropogate, Layer.propogate, neuronsPropogate,
      Neuron.propogate, net0, qmax],
    by norm_num,
    propogate_output_nonneg net0 [1] [3/10, 3/10] (157/100) (by simp [net0])
      (by norm_num [Network.propogate, layersPropogate, Layer.propogate, neuronsPropogate,
        Neuron.propogate, net0, qmax])
      (by norm_num)⟩

/-! ## Helper lemmas: weight serialisation -/

theorem takeN_append (l rest : List Rat) : takeN l.length (l ++ rest) = some (l, rest) := by
  induction l with
  | nil => rfl
  | cons x xs ih => simp [takeN, ih]

theorem neuron_fromWeights_rt (i : Nat) (n : Neuron) (rest : List Rat)
    (h : n.weights.length = i) :
    Neuron.fromWeights i (n.bias :: (n.weights ++ rest)) = some (n, rest) := by
  subst h
  simp [Neuron.fromWeights, takeN_append]

theorem layer_fromWeightsAux_rt (i : Nat) (ns : List Neuron) (rest : List Rat)
    (h : ∀ n ∈ ns, n.weights.length = i) :
    Layer.fromWeightsAux i ns.length ((ns.map (fun n => n.bias :: n.weights)).flatten ++ rest)
      = some (ns, rest) := by
  induction ns with
  | nil => rfl
  | cons n ns ih =>
    have h1 : n.weights.length = i := h n (List.mem_cons_self n ns)
    have h2 : ∀ m ∈ ns, m.weights.length = i := fun m hm => h m (List.mem_cons_of_mem n hm)
    simp only [List.map_cons, List.flatten_cons, List.length_cons, List.cons_append,
      List.append_assoc]
    rw [Layer.fromWeightsAux, neuron_fromWeights_rt i n _ h1]
    simp [ih h2]

theorem layer_fromWeights_rt (i : Nat) (l : Layer) (rest : List Rat)
    (h : ∀ n ∈ l.neurons, n.weights.length = i) :
    Layer.fromWeights i l.neurons.length (layerFlat l ++ rest) = some (l, rest) := by
  unfold Layer.fromWeights layerFlat
  rw [layer_fromWeightsAux_rt i l.neurons rest h]
  rfl

theorem net_fromWeightsAux_rt (ps : List (Nat × Nat)) (ls : List Layer) (rest : List Rat)
    (h : layersMatch ps ls = true) :
    Network.fromWeightsAux ps ((ls.map layerFlat).flatten ++ rest) = some (ls, rest) := by
  induction ps generalizing ls rest with
  | nil =>
    cases ls with
    | nil => rfl
    | cons l ls2 => exact absurd h (by simp [layersMatch])
  | cons p ps ih =>
    obtain ⟨i, o⟩ := p
    cases ls with
    | nil => exact absurd h (by simp [layersMatch])
    | cons l ls2 =>
      rw [layersMatch, Bool.and_assoc, Bool.and_eq_true, Bool.and_eq_true] at h
      obtain ⟨ho, hall, hrest⟩ := h
      have h1 : l.neurons.length = o := by simpa using ho
      have h2 : ∀ n ∈ l.neurons, n.weights.length = i := by
        simpa [List.all_eq_true] using hall
      simp only [List.map_cons, List.flatten_cons, List.append_assoc]
      rw [Network.fromWeightsAux, ← h1, layer_fromWeights_rt i l _ h2]
      simp [ih ls2 rest hrest]

theorem weightsList_eq (ls : List Layer) :
    (((ls.map (fun l => l.neurons)).flatten).map (fun n => n.bias :: n.weights)).flatten
      = (ls.map layerFlat).flatten := by
  induction ls with
  | nil => rfl
  | cons l ls ih =>
    simp only [List.map_cons, List.flatten_cons, List.map_append, List.flatten_append, layerFlat]
    rw [ih]

theorem weights_eq_flat (net : Network) :
    net.weights = (net.layers.map layerFlat).flatten :=
  weightsList_eq net.layers

/-- C3: for every network built over a topology, `Network::from_weights`
applied to that topology and the flat sequence `weights()` produces
reconstructs a network whose `weights()` output is exactly the original
sequence (indeed the reconstruction is the original network itself). -/
theorem fromWeights_weights_roundtrip (net : Network) (topology : List Nat)
    (h1 : 1 < topology.length) (h2 : net.matchesTopo topology = true) :
    (Network.fromWeights topology net.weights).map Network.weights = some net.weights := by
  have hsome : Network.fromWeights topology net.weights = some net := by
    unfold Network.fromWeights
    rw [if_neg (by omega)]
    have haux := net_fromWeightsAux_rt (pairsOf topology) net.layers [] h2
    rw [List.append_nil] at haux
    rw [weights_eq_flat net, haux]
  rw [hsome]
  rfl

/-- Witness for C3 at a concrete network and topology. -/
theorem fromWeights_weights_roundtrip_witness :
    1 < ([1, 1] : List Nat).length ∧ net1.matchesTopo [1, 1] = true ∧
      (Network.fromWeights [1, 1] net1.weights).map Network.weights = some net1.weights :=
  ⟨by decide, by decide, fromWeights_weights_roundtrip net1 [1, 1] (by decide) (by decide)⟩

theorem takeN_underrun (n : Nat) (ws : List Rat) (h : ws.length < n) : takeN n ws = none := by
  induction n generalizing ws with
  | zero => omega
  | succ n ih =>
    cases ws with
    | nil => rfl
    | cons w ws => simp [takeN, ih ws (by simpa using h)]

theorem takeN_enough (n : Nat) (ws : List Rat) (h : n ≤ ws.length) :
    takeN n ws = some (ws.take n, ws.drop n) := by
  induction n generalizing ws with
  | zero => simp [takeN]
  | succ n ih =>
    cases ws with
    | nil => simp at h
    | cons w ws => simp [takeN, ih ws (Nat.le_of_succ_le_succ h)]

theorem neuron_fromWeights_underrun (i : Nat) (ws : List Rat) (h : ws.length < 1 + i) :
    Neuron.fromWeights i ws = none := by
  cases ws with
  | nil => rfl
  | cons b rest =>
    simp [Neuron.fromWeights, takeN_underrun i rest (by simp at h; omega)]

theorem neuron_fromWeights_enough (i : Nat) (ws : List Rat) (h : 1 + i ≤ ws.length) :
    ∃ nr, Neuron.fromWeights i ws = some (nr, ws.drop (1 + i)) := by
  cases ws with
  | nil => simp at h
  | cons b rest =>
    refine ⟨⟨b, rest.take i⟩, ?_⟩
    have hi : i ≤ rest.length := by simp at h; omega
    simp [Neuron.fromWeights, takeN_enough i rest hi, Nat.add_comm 1 i]

theorem layer_aux_underrun (i o : Nat) (ws : List Rat) (h : ws.length < o * (1 + i)) :
    Layer.fromWeightsAux i o ws = none := by
  induction o generalizing ws with
  | zero => simp at h
  | succ o ih =>
    rw [Nat.succ_mul] at h
    by_cases hw : ws.length < 1 + i
    · rw [Layer.fromWeightsAux, neuron_fromWeights_underrun i ws hw]
      rfl
    · push_neg at hw
      obtain ⟨nr, hnr⟩ := neuron_fromWeights_enough i ws hw
      rw [Layer.fromWeightsAux, hnr]
      have hlt : (ws.drop (1 + i)).length < o * (1 + i) := by
        rw [List.length_drop]
        omega
      simp [ih _ hlt]

theorem layer_aux_enough (i o : Nat) (ws : List Rat) (h : o * (1 + i) ≤ ws.length) :
    ∃ ns, Layer.fromWeightsAux i o ws = some (ns, ws.drop (o * (1 + i))) := by
  induction o generalizing ws with
  | zero => exact ⟨[], by simp [Layer.fromWeightsAux]⟩
  | succ o ih =>
    rw [Nat.succ_mul] at h
    have h1 : 1 + i ≤ ws.length := by omega
    obtain ⟨nr, hnr⟩ := neuron_fromWeights_enough i ws h1
    have h2 : o * (1 + i) ≤ (ws.drop (1 + i)).length := by
      rw [List.length_drop]
      omega
    obtain ⟨ns, hns⟩ := ih _ h2
    refine ⟨nr :: ns, ?_⟩
    rw [Layer.fromWeightsAux, hnr]
    simp only [Option.some_bind]
    rw [hns]
    simp only [Option.some_bind]
    rw [List.drop_drop,
      show 1 + i + o * (1 + i) = (o + 1) * (1 + i) from by rw [Nat.succ_mul]; omega]

theorem net_aux_underrun (ps : List (Nat × Nat)) (ws : List Rat)
    (h : ws.length < neededOf ps) :
    Network.fromWeightsAux ps ws = none := by
  induction ps generalizing ws with
  | nil => simp [neededOf] at h
  | cons p ps ih =>
    obtain ⟨i, o⟩ := p
    have hn : neededOf ((i, o) :: ps) = o * (1 + i) + neededOf ps := by
      simp [neededOf]
    rw [hn] at h
    by_cases hw : ws.length < o * (1 + i)
    · rw [Network.fromWeightsAux]
      unfold Layer.fromWeights
      rw [layer_aux_underrun i o ws hw]
      rfl
    · push_neg at hw
      obtain ⟨ns, hns⟩ := layer_aux_enough i o ws hw
      rw [Network.fromWeightsAux]
      unfold Layer.fromWeights
      rw [hns]
      have hlt : (ws.drop (o * (1 + i))).length < neededOf ps := by
        rw [List.length_drop]
        omega
      simp [ih _ hlt]

theorem net_aux_enough (ps : List (Nat × Nat)) (ws : List Rat)
    (h : neededOf ps ≤ ws.length) :
    ∃ ls, Network.fromWeightsAux ps ws = some (ls, ws.drop (neededOf ps)) := by
  induction ps generalizing ws with
  | nil => exact ⟨[], by simp [Network.fromWeightsAux, neededOf]⟩
  | cons p ps ih =>
    obtain ⟨i, o⟩ := p
    have hn : neededOf ((i, o) :: ps) = o * (1 + i) + neededOf ps := by
      simp [neededOf]
    rw [hn] at h ⊢
    have h1 : o * (1 + i) ≤ ws.length := by omega
    obtain ⟨ns, hns⟩ := layer_aux_enough i o ws h1
    have h2 : neededOf ps ≤ (ws.drop (o * (1 + i))).length := by
      rw [List.length_drop]
      omega
    obtain ⟨ls, hls⟩ := ih _ h2
    refine ⟨⟨ns⟩ :: ls, ?_⟩
    rw [Network.fromWeightsAux]
    unfold Layer.fromWeights
    rw [hns]
    simp only [Option.map_some', Option.some_bind]
    rw [hls]
    simp only [Option.some_bind]
    rw [List.drop_drop]

/-- C4: for a topology with at least two entries, `Network::from_weights`
succeeds exactly when the flat sequence has exactly the total
bias-plus-weight count the topology requires; strictly fewer values
panic during neuron reconstruction and strictly more panic on the
leftover check. -/
theorem fromWeights_arity (topology : List Nat) (ws : List Rat) (h : 1 < topology.length) :
    (Network.fromWeights topology ws).isSome = true ↔ ws.length = totalParams topology := by
  unfold Network.fromWeights
  rw [if_neg (by omega)]
  have htp : totalParams topology = neededOf (pairsOf topology) := rfl
  rw [htp]
  constructor
  · intro hs
    by_cases hw : ws.length < neededOf (pairsOf topology)
    · rw [net_aux_underrun _ _ hw] at hs
      simp at hs
    · push_neg at hw
      obtain ⟨ls, hls⟩ := net_aux_enough _ _ hw
      rw [hls] at hs
      cases hdrop : ws.drop (neededOf (pairsOf topology)) with
      | nil =>
        have hle : ws.length ≤ neededOf (pairsOf topology) := by
          rw [← List.drop_eq_nil_iff_le]
          exact hdrop
        omega
      | cons a l =>
        rw [hdrop] at hs
        simp at hs
  · intro he
    have hw : neededOf (pairsOf topology) ≤ ws.length := by omega
    obtain ⟨ls, hls⟩ := net_aux_enough _ _ hw
    rw [hls]
    have hd : ws.drop (neededOf (pairsOf topology)) = [] := by
      rw [List.drop_eq_nil_iff_le]
      omega
    rw [hd]
    rfl

/-- Witness for C4 at a concrete topology and sequence. -/
theorem fromWeights_arity_witness :
    1 < ([1, 1] : List Nat).length ∧
      ((Network.fromWeights [1, 1] [1, 2]).isSome = true ↔
        ([1, 2] : List Rat).length = totalParams [1, 1]) :=
  ⟨by decide, fromWeights_arity [1, 1] [1, 2] (by decide)⟩

/-! ## Helper lemmas: genetic algorithm -/

theorem gaEvolveLoop_eq_iterSlots {I : Type} (ops : IndividualOps I) (ga : GaMethods I)
    (pop : List I) (n : Nat) (r : Rng) :
    gaEvolveLoop ops ga pop n r = iterSlots (evolveSlot ops ga pop) n r := by
  induction n generalizing r with
  | zero => rfl
  | succ n ih =>
    rw [gaEvolveLoop, iterSlots]
    unfold evolveSlot
    cases h1 : ga.select r pop with
    | none => rfl
    | some pa =>
      simp only [Option.some_bind]
      cases h2 : ga.select pa.2 pop with
      | none => rfl
      | some pb =>
        simp only [Option.some_bind]
        rw [ih]
        rfl

theorem iterSlots_length {I : Type} (f : Rng → Option (I × Rng)) :
    ∀ (n : Nat) (r : Rng) (xs : List I) (r2 : Rng),
      iterSlots f n r = some (xs, r2) → xs.length = n := by
  intro n
  induction n with
  | zero =>
    intro r xs r2 h
    rw [iterSlots] at h
    injection h with hp
    injection hp with h1 _
    rw [← h1]
    rfl
  | succ n ih =>
    intro r xs r2 h
    rw [iterSlots] at h
    cases hf : f r with
    | none => rw [hf] at h; exact Option.noConfusion h
    | some x =>
      rw [hf] at h
      simp only [Option.some_bind] at h
      cases hi : iterSlots f n x.2 with
      | none => rw [hi] at h; exact Option.noConfusion h
      | some xs2 =>
        rw [hi] at h
        simp only [Option.some_bind] at h
        injection h with hp
        injection hp with h1 _
        rw [← h1, List.length_cons, ih x.2 xs2.1 xs2.2 hi]

/-- C7: `GeneticAlgorithm::evolve` panics (`none`) on an empty population;
on success it produces exactly `population.length` offspring, where the
offspring list is exactly the index-ordered iteration of the per-slot
recipe (select parent a, select parent b, crossover, mutate in place,
`Individual::create`), and the returned statistics are
`Statistics::new` of the input population, not of the offspring. -/
theorem ga_evolve_spec {I : Type} (ops : IndividualOps I) (ga : GaMethods I) :
    (∀ r, gaEvolve ops ga r ([] : List I) = none) ∧
      ∀ r pop offs stats r2, gaEvolve ops ga r pop = some ((offs, stats), r2) →
        pop ≠ [] ∧ offs.length = pop.length ∧ statisticsNew ops pop = some stats ∧
          iterSlots (evolveSlot ops ga pop) pop.length r = some (offs, r2) := by
  constructor
  · intro r
    rfl
  · intro r pop offs stats r2 h
    have hne : pop ≠ [] := by
      intro he
      subst he
      exact Option.noConfusion h
    unfold gaEvolve at h
    rw [if_neg (by simpa using hne)] at h
    rw [gaEvolveLoop_eq_iterSlots] at h
    cases hl : iterSlots (evolveSlot ops ga pop) pop.length r with
    | none => rw [hl] at h; exact Option.noConfusion h
    | some np =>
      rw [hl] at h
      simp only [Option.some_bind] at h
      cases hst : statisticsNew ops pop with
      | none => rw [hst] at h; exact Option.noConfusion h
      | some st =>
        rw [hst] at h
        simp only [Option.some_bind] at h
        injection h with hp
        have h1 : np.1 = offs := congrArg (fun x => x.1.1) hp
        have h2 : st = stats := congrArg (fun x => x.1.2) hp
        have h3 : np.2 = r2 := congrArg (fun x => x.2) hp
        refine ⟨hne, ?_, ?_, ?_⟩
        · rw [← h1]
          exact iterSlots_length _ pop.length r np.1 np.2 hl
        · rw [h2]
        · rw [← h1, ← h3]

/-- Witness for C7 at a concrete population and strategies. -/
theorem ga_evolve_spec_witness :
    gaEvolve ops1 ga1 rng0 pop1 = some ((pop1, ⟨1, 1, 1⟩), rng0) ∧
      (pop1 ≠ [] ∧ pop1.length = pop1.length ∧
        statisticsNew ops1 pop1 = some ⟨1, 1, 1⟩ ∧
        iterSlots (evolveSlot ops1 ga1 pop1) pop1.length rng0 = some (pop1, rng0)) :=
  ⟨by norm_num [gaEvolve, gaEvolveLoop, ga1, ops1, pop1, statisticsNew, qmin, qmax],
    (ga_evolve_spec ops1 ga1).2 rng0 pop1 pop1 ⟨1, 1, 1⟩ rng0
      (by norm_num [gaEvolve, gaEvolveLoop, ga1, ops1, pop1, statisticsNew, qmin, qmax])⟩

/-- C9: determinism as a two-run property — the embedding threads the RNG
explicitly (as the Rust code does), so two runs of
`GeneticAlgorithm::evolve` on identical inputs coincide, and two runs of
`n` calls to `Simulation::step` from identical initial states produce
identical sequences of World states. -/
theorem pipeline_deterministic {I : Type} (ops : IndividualOps I) (ga : GaMethods I) (geo : Geo) :
    (∀ (r1 r2 : Rng) (p1 p2 : List I), r1 = r2 → p1 = p2 →
      gaEvolve ops ga r1 p1 = gaEvolve ops ga r2 p2) ∧
      ∀ (n : Nat) (s1 s2 : Simulation) (r1 r2 : Rng), s1 = s2 → r1 = r2 →
        stepTrace geo n s1 r1 = stepTrace geo n s2 r2 := by
  constructor
  · intro r1 r2 p1 p2 hr hp
    rw [hr, hp]
  · intro n s1 s2 r1 r2 hs hr
    rw [hs, hr]

/-- Witness for C9 at concrete inputs. -/
theorem pipeline_deterministic_witness :
    gaEvolve ops1 ga1 rng0 pop1 = gaEvolve ops1 ga1 rng0 pop1 ∧
      stepTrace geo0 2 ⟨world0, 0⟩ rng0 = stepTrace geo0 2 ⟨world0, 0⟩ rng0 :=
  ⟨(pipeline_deterministic ops1 ga1 geo0).1 rng0 rng0 pop1 pop1 rfl rfl,
    (pipeline_deterministic ops1 ga1 geo0).2 2 ⟨world0, 0⟩ ⟨world0, 0⟩ rng0 rng0 rfl rfl⟩

/-- C2 (code bug): when `age` exceeds `GENERATION_LENGTH`, `step` calls
`evolve`, whose body hits the unconditional `todo!()` panic before any
population snapshot, replacement or food relocation can happen — here
evaluated on the empty world: the 2501st step panics (`none`) while the
same step at `age = 0` completes normally. -/
theorem step_at_generation_boundary :
    stepSim geo0 ⟨⟨[], []⟩, GENERATION_LENGTH⟩ rng0 = none ∧
      stepSim geo0 ⟨⟨[], []⟩, 0⟩ rng0 = some (⟨⟨[], []⟩, 1⟩, rng0) := by
  constructor <;> rfl

/-! ## Helper lemmas: Gaussian mutation -/

theorem gaussianMutate_zero_chance (coeff : Rat) :
    ∀ (genes : List Rat) (r : Rng), ValidRng r → (gaussianMutate 0 coeff r genes).1 = genes := by
  intro genes
  induction genes with
  | nil => intro r _; rfl
  | cons g gs ih =>
    intro r hv
    have hno : ¬((r.genBool (1/2)).2.genBool 0).1 = true := by
      simp only [Rng.genBool, Rng.next, decide_eq_true_eq]
      exact not_lt.mpr (hv _).1
    rw [gaussianMutate, if_neg hno]
    show g :: (gaussianMutate 0 coeff ((r.genBool (1/2)).2.genBool 0).2 gs).1 = g :: gs
    rw [ih ((r.genBool (1/2)).2.genBool 0).2 hv]

theorem gaussianMutate_one_zero :
    ∀ (genes : List Rat) (r : Rng), ValidRng r → (gaussianMutate 1 0 r genes).1 = genes := by
  intro genes
  induction genes with
  | nil => intro r _; rfl
  | cons g gs ih =>
    intro r hv
    have hyes : ((r.genBool (1/2)).2.genBool 1).1 = true := by
      simp only [Rng.genBool, Rng.next, decide_eq_true_eq]
      exact (hv _).2
    rw [gaussianMutate, if_pos hyes]
    show (g + (if (r.genBool (1/2)).1 then (-1 : Rat) else 1) * 0 *
          ((r.genBool (1/2)).2.genBool 1).2.next.1) ::
        (gaussianMutate 1 0 ((r.genBool (1/2)).2.genBool 1).2.next.2 gs).1 = g :: gs
    rw [ih ((r.genBool (1/2)).2.genBool 1).2.next.2 hv]
    norm_num

theorem gaussianMutate_one_bound (coeff : Rat) (hc : 0 ≤ coeff) :
    ∀ (genes : List Rat) (r : Rng), ValidRng r →
      (gaussianMutate 1 coeff r genes).1.length = genes.length ∧
        ∀ i, |(gaussianMutate 1 coeff r genes).1.getD i 0 - genes.getD i 0| ≤ coeff := by
  intro genes
  induction genes with
  | nil =>
    intro r _
    refine ⟨rfl, fun i => ?_⟩
    simpa using hc
  | cons g gs ih =>
    intro r hv
    have hyes : ((r.genBool (1/2)).2.genBool 1).1 = true := by
      simp only [Rng.genBool, Rng.next, decide_eq_true_eq]
      exact (hv _).2
    rw [gaussianMutate, if_pos hyes]
    have hrec := ih ((r.genBool (1/2)).2.genBool 1).2.next.2 hv
    constructor
    · show ((g + _) :: (gaussianMutate 1 coeff _ gs).1).length = (g :: gs).length
      rw [List.length_cons, List.length_cons, hrec.1]
    · intro i
      cases i with
      | zero =>
        show |(g + (if (r.genBool (1/2)).1 then (-1 : Rat) else 1) * coeff *
            ((r.genBool (1/2)).2.genBool 1).2.next.1) - g| ≤ coeff
        have hu : 0 ≤ ((r.genBool (1/2)).2.genBool 1).2.next.1 ∧
            ((r.genBool (1/2)).2.genBool 1).2.next.1 < 1 := hv (r.idx + 1 + 1)
        rw [add_sub_cancel_left, abs_mul, abs_mul]
        have hsign : |(if (r.genBool (1/2)).1 then (-1 : Rat) else 1)| = 1 := by
          split <;> norm_num
        rw [hsign, one_mul, abs_of_nonneg hc, abs_of_nonneg hu.1]
        calc coeff * ((r.genBool (1/2)).2.genBool 1).2.next.1
            ≤ coeff * 1 := mul_le_mul_of_nonneg_left (le_of_lt hu.2) hc
          _ = coeff := mul_one coeff
      | succ i =>
        show |(gaussianMutate 1 coeff _ gs).1.getD i 0 - gs.getD i 0| ≤ coeff
        exact hrec.2 i

/-- C8: `GaussianMutation::mutate` with `chance = 0` leaves every gene
unchanged for any `coeff`; with `chance = 1, coeff = 0` it leaves every
gene unchanged; and with `chance = 1, coeff ≥ 0` every gene moves by at
most `coeff` in absolute value (each touched gene receives
`± coeff * U(0,1)` with the sign drawn first). -/
theorem gaussian_mutation_bounds (r : Rng) (genes : List Rat) (hv : ValidRng r) :
    (∀ coeff, (gaussianMutate 0 coeff r genes).1 = genes) ∧
      (gaussianMutate 1 0 r genes).1 = genes ∧
      ∀ coeff, 0 ≤ coeff →
        (gaussianMutate 1 coeff r genes).1.length = genes.length ∧
          ∀ i, |(gaussianMutate 1 coeff r genes).1.getD i 0 - genes.getD i 0| ≤ coeff :=
  ⟨fun coeff => gaussianMutate_zero_chance coeff genes r hv,
    gaussianMutate_one_zero genes r hv,
    fun coeff hc => gaussianMutate_one_bound coeff hc genes r hv⟩

/-- Witness for C8 at a concrete RNG and chromosome. -/
theorem gaussian_mutation_bounds_witness :
    (gaussianMutate 0 5 rng0 [1, 2, 3]).1 = [1, 2, 3] ∧
      (gaussianMutate 1 0 rng0 [1, 2, 3]).1 = [1, 2, 3] ∧
      |(gaussianMutate 1 (1/2) rng0 [1, 2, 3]).1.getD 0 0 - (1 : Rat)| ≤ 1/2 :=
  ⟨(gaussian_mutation_bounds rng0 [1, 2, 3] (fun n => by norm_num [rng0])).1 5,
    (gaussian_mutation_bounds rng0 [1, 2, 3] (fun n => by norm_num [rng0])).2.1,
    ((gaussian_mutation_bounds rng0 [1, 2, 3] (fun n => by norm_num [rng0])).2.2 (1/2)
      (by norm_num)).2 0⟩

/-! ## Helper lemmas: collisions -/

theorem processCollisionsFood_length (geo : Geo) (a : Animal) :
    ∀ (r : Rng) (fs : List Food), (processCollisionsFood geo a r fs).1.length = fs.length := by
  intro r fs
  induction fs generalizing r with
  | nil => rfl
  | cons f fs ih =>
    rw [processCollisionsFood]
    by_cases h : geo.dist a.position f.position ≤ 1/100
    · rw [if_pos h]
      show ((⟨(r.nextPoint).1⟩ : Food) ::
          (processCollisionsFood geo a (r.nextPoint).2 fs).1).length = (f :: fs).length
      rw [List.length_cons, List.length_cons, ih]
    · rw [if_neg h]
      show (f :: (processCollisionsFood geo a r fs).1).length = (f :: fs).length
      rw [List.length_cons, List.length_cons, ih]

theorem processCollisionsAnimals_length (geo : Geo) :
    ∀ (la : List Animal) (r : Rng) (fs : List Food),
      (processCollisionsAnimals geo la r fs).1.length = fs.length := by
  intro la
  induction la with
  | nil => intro r fs; rfl
  | cons a rest ih =>
    intro r fs
    rw [processCollisionsAnimals]
    rw [ih]
    exact processCollisionsFood_length geo a r fs

/-- C1 (amended): the collision pass never touches the animals (the
source `Animal` has no satiation counter to increment), never removes a
food (the food count is preserved), and for an animal-food pair within
the eating threshold `0.01` it relocates that food to the next random
position drawn from the RNG. -/
theorem process_collisions_only_relocates (geo : Geo) (w : World) (r : Rng) :
    (processCollisions geo w r).1.animals = w.animals ∧
      (processCollisions geo w r).1.foods.length = w.foods.length ∧
      ∀ a f, w.animals = [a] → w.foods = [f] →
        processCollisions geo w r =
          if geo.dist a.position f.position ≤ 1/100 then
            ({ w with foods := [⟨(r.nextPoint).1⟩] }, (r.nextPoint).2)
          else (w, r) := by
  refine ⟨rfl, ?_, ?_⟩
  · exact processCollisionsAnimals_length geo w.animals r w.foods
  · intro a f ha hf
    obtain ⟨wa, wf⟩ := w
    simp only at ha hf
    subst ha
    subst hf
    by_cases h : geo.dist a.position f.position ≤ 1/100
    · rw [if_pos h]
      simp only [processCollisions, processCollisionsAnimals, processCollisionsFood, if_pos h]
    · rw [if_neg h]
      simp only [processCollisions, processCollisionsAnimals, processCollisionsFood, if_neg h]

/-- C1 counterexample: a world whose single animal sits exactly on the
single food (distance 0, within the eating threshold).  The collision
pass does relocate the food, yet the animal is left bit-for-bit
unchanged — there is no satiation counter in the source `Animal` struct
and nothing else about the animal is modified. -/
theorem collision_no_satiation_cex :
    geo0.dist animal0.position food0.position ≤ 1/100 ∧
      (processCollisions geo0 world0 rng1).1.foods ≠ world0.foods ∧
      (processCollisions geo0 world0 rng1).1.animals = world0.animals := by
  refine ⟨by norm_num [geo0, animal0, food0], ?_, rfl⟩
  norm_num [processCollisions, processCollisionsAnimals, processCollisionsFood, geo0,
    animal0, food0, world0, rng1, Rng.nextPoint, Rng.next, Food.mk.injEq]

/-- Witness for the amended C1 at a concrete world and RNG. -/
theorem process_collisions_only_relocates_witness :
    processCollisions geo0 world0 rng0 =
      if geo0.dist animal0.position food0.position ≤ 1/100 then
        ({ world0 with foods := [⟨(rng0.nextPoint).1⟩] }, (rng0.nextPoint).2)
      else (world0, rng0) :=
  (process_collisions_only_relocates geo0 world0 rng0).2.2 animal0 food0 rfl rfl

/-! ## Helper lemmas: vision -/

theorem bump_length (l : List Rat) (i : Nat) (e : Rat) : (bump l i e).length = l.length := by
  simp [bump]

theorem visionAccum_length (eye : Eye) :
    ∀ (ms : List (Rat × Rat)) (acc : List Rat), (visionAccum eye ms acc).length = acc.length := by
  intro ms
  induction ms with
  | nil => intro acc; rfl
  | cons m ms ih =>
    intro acc
    obtain ⟨d, ang⟩ := m
    by_cases h1 : eye.fovRange ≤ d
    · rw [visionAccum, if_pos h1]
      exact ih acc
    · by_cases h2 : ang < -(eye.fovAngle / 2) ∨ eye.fovAngle / 2 < ang
      · rw [visionAccum, if_neg h1, if_pos h2]
        exact ih acc
      · rw [visionAccum, if_neg h1, if_neg h2, ih]
        exact bump_length acc _ _

theorem processVision_length (geo : Geo) (eye : Eye) (pos : Point) (rot : Rat)
    (foods : List Food) : (processVision geo eye pos rot foods).length = eye.cells := by
  unfold processVision
  rw [visionAccum_length]
  exact List.length_replicate _ _

theorem getD_replicate_zero : ∀ (n i : Nat), (List.replicate n (0 : Rat)).getD i 0 = 0 := by
  intro n
  induction n with
  | zero => intro i; rfl
  | succ n ih =>
    intro i
    cases i with
    | zero => rfl
    | succ i => exact ih i

theorem bump_replicate (n i : Nat) (e : Rat) :
    bump (List.replicate n (0 : Rat)) i e = oneHot n i e := by
  unfold bump oneHot
  rw [getD_replicate_zero, zero_add]

theorem visionAccum_append (eye : Eye) (ms1 ms2 : List (Rat × Rat)) :
    ∀ acc, visionAccum eye (ms1 ++ ms2) acc = visionAccum eye ms2 (visionAccum eye ms1 acc) := by
  induction ms1 with
  | nil => intro acc; rfl
  | cons m ms ih =>
    intro acc
    obtain ⟨d, ang⟩ := m
    by_cases h1 : eye.fovRange ≤ d
    · simp only [List.cons_append, visionAccum, if_pos h1]
      exact ih acc
    · by_cases h2 : ang < -(eye.fovAngle / 2) ∨ eye.fovAngle / 2 < ang
      · simp only [List.cons_append, visionAccum, if_neg h1, if_pos h2]
        exact ih acc
      · simp only [List.cons_append, visionAccum, if_neg h1, if_neg h2]
        exact ih _

theorem bump_zip (a : List Rat) :
    ∀ (b : List Rat) (i : Nat) (e : Rat), a.length = b.length →
      bump (List.zipWith (· + ·) a b) i e = List.zipWith (· + ·) a (bump b i e) := by
  induction a with
  | nil =>
    intro b i e h
    cases b with
    | nil => rfl
    | cons y ys => simp at h
  | cons x xs ih =>
    intro b i e h
    cases b with
    | nil => simp at h
    | cons y ys =>
      have hlen : xs.length = ys.length := by simpa using h
      cases i with
      | zero =>
        simp only [List.zipWith_cons_cons, bump, List.getD_cons_zero, List.set_cons_zero]
        rw [add_assoc]
      | succ i =>
        simp only [List.zipWith_cons_cons, bump, List.getD_cons_succ, List.set_cons_succ]
        exact congrArg (List.cons (x + y)) (ih ys i e hlen)

theorem zip_add_replicate (l : List Rat) :
    List.zipWith (· + ·) l (List.replicate l.length 0) = l := by
  induction l with
  | nil => rfl
  | cons x xs ih => simp [List.replicate_succ, ih]

theorem visionAccum_zip (eye : Eye) (ms : List (Rat × Rat)) :
    ∀ (a b : List Rat), a.length = b.length →
      visionAccum eye ms (List.zipWith (· + ·) a b)
        = List.zipWith (· + ·) a (visionAccum eye ms b) := by
  induction ms with
  | nil => intro a b _; rfl
  | cons m ms ih =>
    intro a b h
    obtain ⟨d, ang⟩ := m
    by_cases h1 : eye.fovRange ≤ d
    · simp only [visionAccum, if_pos h1]
      exact ih a b h
    · by_cases h2 : ang < -(eye.fovAngle / 2) ∨ eye.fovAngle / 2 < ang
      · simp only [visionAccum, if_neg h1, if_pos h2]
        exact ih a b h
      · simp only [visionAccum, if_neg h1, if_neg h2]
        rw [bump_zip a b _ _ h]
        exact ih a (bump b _ _) (h.trans (bump_length b _ _).symm)

/-- C6: `Eye::process_vision` returns exactly `cells` values; a single
food whose measured distance is below `fov_range` and whose wrapped
bearing lies in `[-fov_angle/2, fov_angle/2]` contributes
`(fov_range - dist) / fov_range` to exactly the floored,
right-boundary-clamped bin (`binOf`) and `0` to every other bin; a food
at distance `≥ fov_range` or with wrapped bearing outside the field of
view contributes `0` to every bin; and foods accumulate additively. -/
theorem process_vision_spec (geo : Geo) (eye : Eye) (pos : Point) (rot : Rat) :
    (∀ foods, (processVision geo eye pos rot foods).length = eye.cells) ∧
      (∀ f d θ, foodMeasure geo pos rot f = (d, θ) →
        (d < eye.fovRange → -(eye.fovAngle / 2) ≤ θ → θ ≤ eye.fovAngle / 2 →
          processVision geo eye pos rot [f] =
            oneHot eye.cells (binOf eye θ) ((eye.fovRange - d) / eye.fovRange)) ∧
        (eye.fovRange ≤ d ∨ θ < -(eye.fovAngle / 2) ∨ eye.fovAngle / 2 < θ →
          processVision geo eye pos rot [f] = List.replicate eye.cells 0)) ∧
      ∀ fs1 fs2, processVision geo eye pos rot (fs1 ++ fs2) =
        List.zipWith (· + ·) (processVision geo eye pos rot fs1)
          (processVision geo eye pos rot fs2) := by
  refine ⟨fun foods => processVision_length geo eye pos rot foods, ?_, ?_⟩
  · intro f d θ hm
    constructor
    · intro hd hlo hhi
      unfold processVision
      rw [List.map_cons, List.map_nil, hm]
      rw [visionAccum, if_neg (not_le.mpr hd),
        if_neg (not_or.mpr ⟨not_lt.mpr hlo, not_lt.mpr hhi⟩)]
      exact bump_replicate eye.cells (binOf eye θ) _
    · intro hout
      unfold processVision
      rw [List.map_cons, List.map_nil, hm]
      by_cases h1 : eye.fovRange ≤ d
      · rw [visionAccum, if_pos h1]
        rfl
      · rw [visionAccum, if_neg h1, if_pos (hout.resolve_left h1)]
        rfl
  · intro fs1 fs2
    unfold processVision
    rw [List.map_append, visionAccum_append]
    have hX : (visionAccum eye (fs1.map (foodMeasure geo pos rot))
        (List.replicate eye.cells 0)).length = eye.cells := by
      rw [visionAccum_length]
      exact List.length_replicate _ _
    conv_lhs =>
      rw [← zip_add_replicate
        (visionAccum eye (fs1.map (foodMeasure geo pos rot)) (List.replicate eye.cells 0))]
    rw [visionAccum_zip eye _ _ _ (List.length_replicate _ _).symm, hX]

/-- Witness for C6 at a concrete eye and food. -/
theorem process_vision_spec_witness :
    foodMeasure geo0 (1/2, 1/2) 0 food0 = (0, 0) ∧ (0 : Rat) < eye0.fovRange ∧
      processVision geo0 eye0 (1/2, 1/2) 0 [food0] =
        oneHot eye0.cells (binOf eye0 0) ((eye0.fovRange - 0) / eye0.fovRange) :=
  ⟨by norm_num [foodMeasure, geo0, food0, psub, rwrap],
    by norm_num [eye0],
    ((process_vision_spec geo0 eye0 (1/2, 1/2) 0).2.1 food0 0 0
        (by norm_num [foodMeasure, geo0, food0, psub, rwrap])).1
      (by norm_num [eye0]) (by norm_num [eye0]) (by norm_num [eye0])⟩
